import Mathlib

/-!
Verification of the StrKit string library (src/strkit.c) against its
specification.

Modelling conventions (shallow embedding):

* A text buffer is a `List Nat` of 8-bit code units.  For most functions the
  list models exactly the units before the NUL terminator (a valid C string's
  content, which contains no zero unit).  For the functions whose C code makes
  the terminator observable (`index_of`, the in-place case converters), the
  list models the raw memory starting at the pointer, and a zero element plays
  the role of the terminator.
* `NULL` inputs are modelled with `Option` only where a claim needs the absent
  case (`index_of`).
* Machine `int` arguments (`start`, `length`, `times`, `index`) are modelled
  as `Int`; the library never exercises them near overflow in the claims.
* Allocation is assumed to succeed (pure model) except in the dedicated
  allocation model `str_splitA`, which threads an oracle deciding the fate of
  each `malloc` call and an accounting of live allocations, mirroring the
  cleanup path of `str_split`.
-/

/-- C helper `char_capitalize`: map a lowercase ASCII letter (97..122) to the
corresponding uppercase letter by subtracting 32; identity otherwise. -/
def char_capitalize (c : Nat) : Nat :=
  if 97 ≤ c ∧ c ≤ 122 then c - 32 else c

/-- C helper `char_decapitalize`: map an uppercase ASCII letter (65..90) to the
corresponding lowercase letter by adding 32; identity otherwise. -/
def char_decapitalize (c : Nat) : Nat :=
  if 65 ≤ c ∧ c ≤ 90 then c + 32 else c

/-- C helper `is_whitespace`: space, tab, newline, carriage return, form feed,
vertical tab (ASCII 32, 9, 10, 13, 12, 11). -/
def is_whitespace (c : Nat) : Bool :=
  c = 32 || c = 9 || c = 10 || c = 13 || c = 12 || c = 11

/-- First pass of `str_split`: count occurrences of the delimiter
(`for (ptr = text; *ptr; ptr++) if (*ptr == delimiter) token_count++`). -/
def countOcc (d : Nat) : List Nat → Nat
  | [] => 0
  | c :: rest => (if c = d then 1 else 0) + countOcc d rest

/-- Second pass of `str_split`: walk the text, cutting a token at each
delimiter and at the terminator.  `acc` holds the units copied since
`token_start`. -/
def splitGo (d : Nat) : List Nat → List Nat → List (List Nat)
  | [], acc => [acc]
  | c :: rest, acc =>
      if c = d then acc :: splitGo d rest []
      else splitGo d rest (acc ++ [c])

/-- C `str_split` on a present text (the pure model: every allocation
succeeds).  Returns the token list. -/
def str_split (text : List Nat) (delimiter : Nat) : List (List Nat) :=
  splitGo delimiter text []

/-- C `str_join_n` on a present token array: concatenate the tokens with the
separator inserted after every token but the last. -/
def str_join_n : List (List Nat) → Nat → List Nat
  | [], _ => []
  | [s], _ => s
  | s :: rest, sep => s ++ sep :: str_join_n rest sep

/-- Loop of C `str_title`: `capitalize_next` starts true; whitespace passes
through and sets it, a non-whitespace unit is capitalized if it is set
(clearing it) and decapitalized otherwise. -/
def str_title_go (capitalize_next : Bool) : List Nat → List Nat
  | [] => []
  | c :: rest =>
      if is_whitespace c then c :: str_title_go true rest
      else if capitalize_next then char_capitalize c :: str_title_go false rest
      else char_decapitalize c :: str_title_go false rest

/-- C `str_title` (in-place title casing) on a present text. -/
def str_title (text : List Nat) : List Nat :=
  str_title_go true text

/-- C `str_title_n`: copy the text, then apply `str_title` to the copy. -/
def str_title_n (text : List Nat) : List Nat :=
  str_title text

/-- C `str_trim_n` on a present text: skip leading whitespace; if nothing is
left the result is empty; otherwise scan back from the end over trailing
whitespace and copy the units in between. -/
def str_trim_n (s : List Nat) : List Nat :=
  let start := s.dropWhile is_whitespace
  if start = [] then []
  else ((start.reverse.dropWhile is_whitespace)).reverse

/-- C `str_substring_n` on a present text: clamp a negative `start` to 0;
`start` at or past the end yields the empty buffer; a negative `length` or one
reaching past the end is clamped to the remainder; then copy `length` units
from `start`. -/
def str_substring_n (text : List Nat) (start length : Int) : List Nat :=
  let text_len : Int := (text.length : Int)
  let start' := if start < 0 then 0 else start
  if start' ≥ text_len then []
  else
    let length' :=
      if length < 0 ∨ start' + length > text_len then text_len - start'
      else length
    (text.drop start'.toNat).take length'.toNat

/-- C `str_repeat_n` on a present text: `times ≤ 0` or an empty text yields
the empty buffer; otherwise the text is written out `times` times. -/
def str_repeat_n (text : List Nat) (times : Int) : List Nat :=
  if times ≤ 0 then []
  else if text.length = 0 then []
  else (List.replicate times.toNat text).flatten

/-- C `str_char_at` on a present text: a negative index or one at or past the
length yields the NUL sentinel `'\0'` (unit 0); otherwise `text[index]`. -/
def str_char_at (text : List Nat) (index : Int) : Nat :=
  if index < 0 then 0
  else if index ≥ (text.length : Int) then 0
  else text.getD index.toNat 0

/-- C `str_uppercase` (in-place), modelled on the raw buffer: the loop
rewrites units through `char_capitalize` until it reaches the terminator;
the terminator and whatever lies beyond it are untouched. -/
def str_uppercase : List Nat → List Nat
  | [] => []
  | c :: rest =>
      if c = 0 then c :: rest
      else char_capitalize c :: str_uppercase rest

/-- C `str_uppercase_n`, modelled on the raw buffer: reads units until the
terminator, writing their capitalized images into a fresh buffer whose
content is exactly what was written. -/
def str_uppercase_n : List Nat → List Nat
  | [] => []
  | c :: rest =>
      if c = 0 then []
      else char_capitalize c :: str_uppercase_n rest

/-- C `str_lowercase` (in-place), modelled on the raw buffer like
`str_uppercase`. -/
def str_lowercase : List Nat → List Nat
  | [] => []
  | c :: rest =>
      if c = 0 then c :: rest
      else char_decapitalize c :: str_lowercase rest

/-- C `str_lowercase_n`, modelled on the raw buffer like `str_uppercase_n`. -/
def str_lowercase_n : List Nat → List Nat
  | [] => []
  | c :: rest =>
      if c = 0 then []
      else char_decapitalize c :: str_lowercase_n rest

/-- The content of a raw buffer: the units before the terminator. -/
def bufContent (buf : List Nat) : List Nat :=
  buf.takeWhile (fun c => c != 0)

/-- Loop of C `index_of` over raw memory starting at offset `i`: the scan
stops at the terminator (`while (*ptr)`); inside the loop a unit equal to
`search` ends the scan with the current offset. -/
def index_of_go (search : Nat) : List Nat → Nat → Int
  | [], _ => -1
  | c :: rest, i =>
      if c = 0 then -1
      else if c = search then (i : Int)
      else index_of_go search rest (i + 1)

/-- C `index_of`: a `NULL` text yields -1; otherwise scan the buffer. -/
def index_of (search : Nat) (text : Option (List Nat)) : Int :=
  match text with
  | none => -1
  | some l => index_of_go search l 0

/-- Heap accounting for the allocation model: `ctr` numbers the next `malloc`
call, `live` lists the ids of allocations not yet freed (most recent first). -/
structure Heap where
  ctr : Nat
  live : List Nat
deriving DecidableEq

/-- One `malloc` call: the oracle `ok` decides whether call number `h.ctr`
succeeds; on success its id becomes live. -/
def hAlloc (ok : Nat → Bool) (h : Heap) : Option Nat × Heap :=
  if ok h.ctr then (some h.ctr, ⟨h.ctr + 1, h.ctr :: h.live⟩)
  else (none, ⟨h.ctr + 1, h.live⟩)

/-- One `free` call: the id stops being live. -/
def hFree (id : Nat) (h : Heap) : Heap :=
  ⟨h.ctr, h.live.erase id⟩

/-- The cleanup loop of `str_split`
(`for (p = result; p < result_ptr; p++) free(*p)`): free every token
allocated so far. -/
def freeAll (ids : List Nat) (h : Heap) : Heap :=
  match ids with
  | [] => h
  | id :: rest => freeAll rest (hFree id h)

/-- Second pass of `str_split` in the allocation model.  `cid` is the id of
the token array, `ids` the ids of the tokens allocated so far, `toks` their
contents in order.  At each delimiter and at the terminator a token is
allocated; if that `malloc` fails, every token so far and the array are freed
and the pass reports failure. -/
def splitGoA (ok : Nat → Bool) (d : Nat) (cid : Nat) :
    List Nat → List Nat → List Nat → List (List Nat) → Heap →
    Option (List (List Nat)) × Heap
  | text, acc, ids, toks, h =>
    match text with
    | [] =>
        match hAlloc ok h with
        | (none, h') => (none, hFree cid (freeAll ids h'))
        | (some _, h') => (some (toks ++ [acc]), h')
    | c :: rest =>
        if c = d then
          match hAlloc ok h with
          | (none, h') => (none, hFree cid (freeAll ids h'))
          | (some tid, h') => splitGoA ok d cid rest [] (tid :: ids) (toks ++ [acc]) h'
        else splitGoA ok d cid rest (acc ++ [c]) ids toks h

/-- C `str_split` in the allocation model: allocate the token array (if that
fails, nothing was allocated and the result is failure), then run the second
pass.  Returns the result and the final heap. -/
def str_splitA (ok : Nat → Bool) (text : List Nat) (d : Nat) :
    Option (List (List Nat)) × Heap :=
  match hAlloc ok ⟨0, []⟩ with
  | (none, h1) => (none, h1)
  | (some cid, h1) => splitGoA ok d cid text [] [] [] h1

/-! ## Helper lemmas -/

theorem splitGo_length (d : Nat) :
    ∀ (t acc : List Nat), (splitGo d t acc).length = countOcc d t + 1 := by
  intro t
  induction t with
  | nil => intro acc; simp [splitGo, countOcc]
  | cons c rest ih =>
      intro acc
      by_cases h : c = d <;> simp [splitGo, countOcc, h, ih]
      omega

theorem splitGo_count_zero (d : Nat) :
    ∀ (t acc : List Nat), countOcc d t = 0 → splitGo d t acc = [acc ++ t] := by
  intro t
  induction t with
  | nil => intro acc _; simp [splitGo]
  | cons c rest ih =>
      intro acc hco
      by_cases h : c = d
      · simp [countOcc, h] at hco
      · simp only [countOcc, if_neg h, Nat.zero_add] at hco
        simp [splitGo, h, ih (acc ++ [c]) hco]

theorem splitGo_concat_delim (d : Nat) :
    ∀ (t acc : List Nat), splitGo d (t ++ [d]) acc = splitGo d t acc ++ [[]] := by
  intro t
  induction t with
  | nil => intro acc; simp [splitGo]
  | cons c rest ih =>
      intro acc
      by_cases h : c = d <;> simp [splitGo, h, ih]

theorem splitGo_ne_nil (d : Nat) (t acc : List Nat) : splitGo d t acc ≠ [] := by
  intro hcon
  have := splitGo_length d t acc
  rw [hcon] at this
  simp at this

theorem str_join_n_cons (a s : List Nat) (S : List (List Nat)) (sep : Nat) :
    str_join_n (a :: s :: S) sep = a ++ sep :: str_join_n (s :: S) sep := rfl

theorem join_splitGo (d : Nat) :
    ∀ (t acc : List Nat), str_join_n (splitGo d t acc) d = acc ++ t := by
  intro t
  induction t with
  | nil => intro acc; simp [splitGo, str_join_n]
  | cons c rest ih =>
      intro acc
      by_cases h : c = d
      · subst h
        rw [show splitGo c (c :: rest) acc = acc :: splitGo c rest [] by
              simp [splitGo]]
        cases hS : splitGo c rest [] with
        | nil => exact absurd hS (splitGo_ne_nil c rest [])
        | cons s S =>
            rw [str_join_n_cons]
            have := ih []
            rw [hS] at this
            rw [this]
            simp
      · rw [show splitGo d (c :: rest) acc = splitGo d rest (acc ++ [c]) by
              simp [splitGo, h]]
        rw [ih (acc ++ [c])]
        simp

theorem char_capitalize_ne_zero {c : Nat} (h : c ≠ 0) : char_capitalize c ≠ 0 := by
  unfold char_capitalize
  split <;> omega

theorem char_decapitalize_ne_zero {c : Nat} (h : c ≠ 0) : char_decapitalize c ≠ 0 := by
  unfold char_decapitalize
  split <;> omega

theorem bufContent_cons_ne {c : Nat} (l : List Nat) (h : c ≠ 0) :
    bufContent (c :: l) = c :: bufContent l := by
  simp [bufContent, List.takeWhile_cons, h]

theorem bufContent_cons_zero (l : List Nat) : bufContent (0 :: l) = [] := by
  simp [bufContent, List.takeWhile_cons]

theorem index_of_go_zero_search (l : List Nat) :
    ∀ i : Nat, index_of_go 0 l i = -1 := by
  induction l with
  | nil => intro i; rfl
  | cons c rest ih =>
      intro i
      by_cases h : c = 0 <;> simp [index_of_go, h, ih]

/-! ## Claims -/

/-- C1: `str_split` produces exactly `countOcc + 1` tokens in order; with no
delimiter occurrence the single token is the whole input; a leading or
trailing delimiter yields an empty token at that position; splitting
"Hello, World!" at ',' yields "Hello" and " World!". -/
theorem claim_C1 :
    (∀ (t : List Nat) (d : Nat),
        (str_split t d).length = countOcc d t + 1 ∧
        (countOcc d t = 0 → str_split t d = [t]) ∧
        (∀ rest, t = d :: rest → (str_split t d).head? = some []) ∧
        (∀ init, t = init ++ [d] → (str_split t d).getLast? = some [])) ∧
    str_split [72, 101, 108, 108, 111, 44, 32, 87, 111, 114, 108, 100, 33] 44 =
      [[72, 101, 108, 108, 111], [32, 87, 111, 114, 108, 100, 33]] := by
  refine ⟨fun t d => ⟨splitGo_length d t [], fun h => by
    simpa using splitGo_count_zero d t [] h, ?_, ?_⟩, by decide⟩
  · intro rest hrest
    subst hrest
    simp [str_split, splitGo]
  · intro init hinit
    subst hinit
    rw [str_split, splitGo_concat_delim]
    simp

/-- Witness for C1 at concrete inputs: a delimiter-free text gives one token,
a leading delimiter an empty first token, a trailing delimiter an empty last
token. -/
theorem claim_C1_witness :
    str_split [97] 44 = [[97]] ∧
    (str_split [44, 97] 44).head? = some [] ∧
    (str_split [97, 44] 44).getLast? = some [] :=
  ⟨(claim_C1.1 [97] 44).2.1 (by decide),
   (claim_C1.1 [44, 97] 44).2.2.1 [97] rfl,
   (claim_C1.1 [97, 44] 44).2.2.2 [97] rfl⟩

/-- C3: joining the tokens of `str_split text d` with separator `d`
reconstructs `text`, whether or not the delimiter occurs in `text`. -/
theorem claim_C3 (t : List Nat) (d : Nat) :
    str_join_n (str_split t d) d = t := by
  simpa using join_splitGo d t []

/-- C9: the pure case converters agree with the in-place ones: the fresh
buffer built by `str_uppercase_n` equals the content (units before the
terminator) of the buffer mutated by `str_uppercase`, and likewise for the
lowercase pair. -/
theorem claim_C9 (buf : List Nat) :
    str_uppercase_n buf = bufContent (str_uppercase buf) ∧
    str_lowercase_n buf = bufContent (str_lowercase buf) := by
  induction buf with
  | nil => exact ⟨rfl, rfl⟩
  | cons c rest ih =>
      constructor
      · by_cases h : c = 0
        · subst h
          simp [str_uppercase_n, str_uppercase, bufContent_cons_zero]
        · have hne := char_capitalize_ne_zero h
          simp only [str_uppercase_n, str_uppercase, if_neg h]
          rw [bufContent_cons_ne _ hne, ih.1]
      · by_cases h : c = 0
        · subst h
          simp [str_lowercase_n, str_lowercase, bufContent_cons_zero]
        · have hne := char_decapitalize_ne_zero h
          simp only [str_lowercase_n, str_lowercase, if_neg h]
          rw [bufContent_cons_ne _ hne, ih.2]

theorem str_title_go_cons (f : Bool) (c : Nat) (rest : List Nat) :
    str_title_go f (c :: rest) =
      (if is_whitespace c then c
       else if f then char_capitalize c else char_decapitalize c) ::
      str_title_go (is_whitespace c) rest := by
  by_cases h : is_whitespace c
  · simp [str_title_go, h]
  · cases f <;> simp [str_title_go, h]

theorem str_title_go_length :
    ∀ (t : List Nat) (f : Bool), (str_title_go f t).length = t.length := by
  intro t
  induction t with
  | nil => intro f; rfl
  | cons c rest ih =>
      intro f
      rw [str_title_go_cons]
      simp [ih]

theorem str_title_go_head (t : List Nat) (f : Bool) (c : Nat)
    (h : t[0]? = some c) :
    (str_title_go f t)[0]? =
      some (if is_whitespace c then c
            else if f then char_capitalize c else char_decapitalize c) := by
  cases t with
  | nil => simp at h
  | cons a rest =>
      simp only [List.getElem?_cons_zero, Option.some.injEq] at h
      subst h
      rw [str_title_go_cons]
      simp

theorem str_title_go_get_succ :
    ∀ (t : List Nat) (f : Bool) (i : Nat) (p c : Nat),
      t[i]? = some p → t[i + 1]? = some c →
      (str_title_go f t)[i + 1]? =
        some (if is_whitespace c then c
              else if is_whitespace p then char_capitalize c
              else char_decapitalize c) := by
  intro t
  induction t with
  | nil => intro f i p c hp _; simp at hp
  | cons a rest ih =>
      intro f i p c hp hc
      cases i with
      | zero =>
          have hap : a = p := by simpa using hp
          subst hap
          simp only [List.getElem?_cons_succ] at hc
          rw [str_title_go_cons]
          simp only [List.getElem?_cons_succ]
          exact str_title_go_head rest (is_whitespace a) c hc
      | succ j =>
          simp only [List.getElem?_cons_succ] at hp hc
          rw [str_title_go_cons]
          simp only [List.getElem?_cons_succ]
          exact ih (is_whitespace a) j p c hp hc

/-- C4: `str_title_n` preserves the length; the unit at position 0 passes
through if whitespace and is capitalized otherwise; the unit at any later
position passes through if whitespace, is capitalized if it follows a
whitespace unit, and is decapitalized otherwise; title-casing
"the QUICK fox" gives "The Quick Fox". -/
theorem claim_C4 :
    (∀ t : List Nat, (str_title_n t).length = t.length) ∧
    (∀ (t : List Nat) (c : Nat), t[0]? = some c →
        (str_title_n t)[0]? =
          some (if is_whitespace c then c else char_capitalize c)) ∧
    (∀ (t : List Nat) (i : Nat) (p c : Nat),
        t[i]? = some p → t[i + 1]? = some c →
        (str_title_n t)[i + 1]? =
          some (if is_whitespace c then c
                else if is_whitespace p then char_capitalize c
                else char_decapitalize c)) ∧
    str_title_n [116, 104, 101, 32, 81, 85, 73, 67, 75, 32, 102, 111, 120] =
      [84, 104, 101, 32, 81, 117, 105, 99, 107, 32, 70, 111, 120] := by
  refine ⟨fun t => str_title_go_length t true, fun t c h => ?_,
    fun t i p c hp hc => str_title_go_get_succ t true i p c hp hc, by decide⟩
  have := str_title_go_head t true c h
  simpa using this

/-- Witness for C4 at the text " ab": the leading space passes through, 'a'
is capitalized at a word start, 'b' after a non-whitespace unit stays
lowercase. -/
theorem claim_C4_witness :
    (str_title_n [32, 97, 98])[0]? = some 32 ∧
    (str_title_n [32, 97, 98])[1]? = some 65 ∧
    (str_title_n [32, 97, 98])[2]? = some 98 := by
  refine ⟨?_, ?_, ?_⟩
  · have := claim_C4.2.1 [32, 97, 98] 32 rfl
    simpa using this
  · have := claim_C4.2.2.1 [32, 97, 98] 0 32 97 rfl rfl
    simpa using this
  · have := claim_C4.2.2.1 [32, 97, 98] 1 97 98 rfl rfl
    simpa using this

theorem str_trim_n_eq (s : List Nat) :
    str_trim_n s =
      if s.dropWhile is_whitespace = [] then []
      else List.rdropWhile is_whitespace (s.dropWhile is_whitespace) := rfl

/-- C5: the trimmed copy has no leading and no trailing whitespace unit,
trimming a second time changes nothing, and an all-whitespace input trims to
the empty buffer. -/
theorem claim_C5 (s : List Nat) :
    (∀ c, (str_trim_n s).head? = some c → is_whitespace c = false) ∧
    (∀ c, (str_trim_n s).getLast? = some c → is_whitespace c = false) ∧
    str_trim_n (str_trim_n s) = str_trim_n s ∧
    (s.all is_whitespace = true → str_trim_n s = []) := by
  by_cases h0 : s.dropWhile is_whitespace = []
  · rw [str_trim_n_eq, if_pos h0]
    exact ⟨by simp, by simp, rfl, fun _ => rfl⟩
  · rw [str_trim_n_eq, if_neg h0]
    have hh := List.head_dropWhile_not is_whitespace s h0
    have hne : List.rdropWhile is_whitespace (s.dropWhile is_whitespace) ≠ [] := by
      rw [Ne, List.rdropWhile_eq_nil_iff]
      intro hall
      have h1 := hall _ (List.head_mem h0)
      rw [h1] at hh
      exact Bool.noConfusion hh
    have hlast := List.rdropWhile_last_not is_whitespace
      (s.dropWhile is_whitespace) hne
    obtain ⟨tl, htl⟩ :=
      List.rdropWhile_prefix is_whitespace (s.dropWhile is_whitespace)
    refine ⟨?_, ?_, ?_, ?_⟩
    · intro c hc
      cases htrim : List.rdropWhile is_whitespace (s.dropWhile is_whitespace) with
      | nil => exact absurd htrim hne
      | cons a tl2 =>
          have hstart_eq : s.dropWhile is_whitespace = a :: (tl2 ++ tl) := by
            rw [← htl, htrim]; simp
          have hha : is_whitespace a = false := by
            have hhead : (s.dropWhile is_whitespace).head h0 = a := by
              simp [hstart_eq]
            rwa [hhead] at hh
          rw [htrim] at hc
          simp only [List.head?_cons, Option.some.injEq] at hc
          subst hc
          exact hha
    · intro c hc
      rw [List.getLast?_eq_getLast_of_ne_nil hne, Option.some.injEq] at hc
      subst hc
      simpa using hlast
    · cases htrim : List.rdropWhile is_whitespace (s.dropWhile is_whitespace) with
      | nil => exact absurd htrim hne
      | cons a tl2 =>
          have hstart_eq : s.dropWhile is_whitespace = a :: (tl2 ++ tl) := by
            rw [← htl, htrim]; simp
          have hha : is_whitespace a = false := by
            have hhead : (s.dropWhile is_whitespace).head h0 = a := by
              simp [hstart_eq]
            rwa [hhead] at hh
          have hdw : List.dropWhile is_whitespace (a :: tl2) = a :: tl2 := by
            simp [List.dropWhile_cons, hha]
          rw [str_trim_n_eq, hdw, if_neg (List.cons_ne_nil a tl2), ← htrim,
            List.rdropWhile_idempotent]
    · intro hall
      exact absurd (List.dropWhile_eq_nil_iff.mpr
        (fun x hx => List.all_eq_true.mp hall x hx)) h0

/-- Witness for C5: trimming " a " yields "a", whose first and last units are
not whitespace, and the all-whitespace text " \t\n" trims to empty. -/
theorem claim_C5_witness :
    is_whitespace 97 = false ∧ is_whitespace 97 = false ∧
    str_trim_n [32, 9, 10] = [] :=
  ⟨(claim_C5 [32, 97, 32]).1 97 (by decide),
   (claim_C5 [32, 97, 32]).2.1 97 (by decide),
   (claim_C5 [32, 9, 10]).2.2.2 (by decide)⟩

theorem str_substring_n_eq (t : List Nat) (s l : Int) :
    str_substring_n t s l =
      if (if s < 0 then 0 else s) ≥ (t.length : Int) then []
      else
        (t.drop (if s < 0 then 0 else s).toNat).take
          (if l < 0 ∨ (if s < 0 then 0 else s) + l > (t.length : Int)
           then (t.length : Int) - (if s < 0 then 0 else s)
           else l).toNat := rfl

theorem str_substring_n_drop_take (t : List Nat) (s l : Int)
    (hs : ¬ s < 0) :
    str_substring_n t s l =
      (t.drop s.toNat).take (if l < 0 then t.length else l.toNat) := by
  rw [str_substring_n_eq, if_neg hs]
  by_cases hge : s ≥ (t.length : Int)
  · rw [if_pos hge, List.drop_eq_nil_of_le (by omega), List.take_nil]
  · rw [if_neg hge]
    have hlt : s < (t.length : Int) := by omega
    have hdl := List.length_drop s.toNat t
    by_cases hl0 : l < 0
    · rw [if_pos (Or.inl hl0), if_pos hl0]
      rw [List.take_of_length_le (by omega), List.take_of_length_le (by omega)]
    · rw [if_neg hl0]
      by_cases hover : s + l > (t.length : Int)
      · rw [if_pos (Or.inr hover)]
        rw [List.take_of_length_le (by omega), List.take_of_length_le (by omega)]
      · rw [if_neg (by exact not_or.mpr ⟨hl0, hover⟩)]

theorem str_substring_n_neg_start (t : List Nat) (s l : Int)
    (hs : s < 0) :
    str_substring_n t s l =
      (t.drop s.toNat).take (if l < 0 then t.length else l.toNat) := by
  rw [str_substring_n_eq, if_pos hs]
  have hz : (0 : Int).toNat = s.toNat := by omega
  by_cases hge : (0 : Int) ≥ (t.length : Int)
  · rw [if_pos hge, List.drop_eq_nil_of_le (by omega), List.take_nil]
  · rw [if_neg hge]
    have hlt : (0 : Int) < (t.length : Int) := by omega
    have hdl := List.length_drop s.toNat t
    rw [hz]
    by_cases hl0 : l < 0
    · rw [if_pos (Or.inl hl0), if_pos hl0]
      rw [List.take_of_length_le (by omega), List.take_of_length_le (by omega)]
    · rw [if_neg hl0]
      by_cases hover : (0 : Int) + l > (t.length : Int)
      · rw [if_pos (Or.inr hover)]
        rw [List.take_of_length_le (by omega), List.take_of_length_le (by omega)]
      · rw [if_neg (by exact not_or.mpr ⟨hl0, hover⟩)]

/-- C6: `str_substring_n` never errors, it clamps: the result is always the
suffix of `text` from the clamped `start`, cut to `length` units (to the full
remainder when `length` is negative); in particular
`str_substring_n "abcdef" (-3) 4 = "abcd"` and
`str_substring_n "abcdef" 10 2 = ""`. -/
theorem claim_C6 :
    (∀ (t : List Nat) (s l : Int),
        str_substring_n t s l =
          (t.drop s.toNat).take (if l < 0 then t.length else l.toNat)) ∧
    str_substring_n [97, 98, 99, 100, 101, 102] (-3) 4 = [97, 98, 99, 100] ∧
    str_substring_n [97, 98, 99, 100, 101, 102] 10 2 = [] := by
  refine ⟨fun t s l => ?_, by decide, by decide⟩
  by_cases hs : s < 0
  · exact str_substring_n_neg_start t s l hs
  · exact str_substring_n_drop_take t s l hs

theorem str_repeat_n_nil (times : Int) : str_repeat_n [] times = [] := by
  unfold str_repeat_n
  split
  · rfl
  · simp

theorem flatten_replicate_comm (t : List Nat) :
    ∀ k : Nat,
      t ++ (List.replicate k t).flatten = (List.replicate k t).flatten ++ t := by
  intro k
  induction k with
  | zero => simp
  | succ j ih =>
      rw [List.replicate_succ, List.flatten_cons, List.append_assoc, ← ih]

theorem flatten_replicate_succ (t : List Nat) (k : Nat) :
    (List.replicate (k + 1) t).flatten = (List.replicate k t).flatten ++ t := by
  rw [List.replicate_succ, List.flatten_cons, flatten_replicate_comm]

theorem length_flatten_replicate (t : List Nat) :
    ∀ k : Nat, ((List.replicate k t).flatten).length = k * t.length := by
  intro k
  induction k with
  | zero => simp
  | succ j ih =>
      rw [List.replicate_succ, List.flatten_cons]
      simp [ih, Nat.succ_mul]
      omega

/-- C7: `str_repeat_n` yields the empty buffer (not a failure) whenever
`times ≤ 0` or the text is empty; for positive `times` the result is the text
appended to the repeat with one fewer round, and its length is
`times * length(text)`. -/
theorem claim_C7 (t : List Nat) (times : Int) :
    (times ≤ 0 ∨ t = [] → str_repeat_n t times = []) ∧
    (0 < times → str_repeat_n t times = str_repeat_n t (times - 1) ++ t) ∧
    (0 < times → (str_repeat_n t times).length = times.toNat * t.length) := by
  refine ⟨?_, ?_, ?_⟩
  · rintro (h | h)
    · rw [str_repeat_n, if_pos h]
    · subst h
      exact str_repeat_n_nil times
  · intro hpos
    by_cases ht : t = []
    · subst ht
      rw [str_repeat_n_nil, str_repeat_n_nil]
      rfl
    · have hlen : t.length ≠ 0 := fun hc => ht (List.length_eq_zero.mp hc)
      rw [str_repeat_n, if_neg (not_le.mpr hpos), if_neg hlen]
      have hsplit : times.toNat = (times - 1).toNat + 1 := by omega
      rw [hsplit, flatten_replicate_succ]
      by_cases h1 : times - 1 ≤ 0
      · have : (times - 1).toNat = 0 := by omega
        rw [this, str_repeat_n, if_pos h1]
        simp
      · rw [str_repeat_n, if_neg h1, if_neg hlen]
  · intro hpos
    by_cases ht : t = []
    · subst ht
      rw [str_repeat_n_nil]
      simp
    · have hlen : t.length ≠ 0 := fun hc => ht (List.length_eq_zero.mp hc)
      rw [str_repeat_n, if_neg (not_le.mpr hpos), if_neg hlen,
        length_flatten_replicate]

/-- Witness for C7 at text "ab" and two repetitions. -/
theorem claim_C7_witness :
    str_repeat_n [97, 98] 0 = [] ∧
    str_repeat_n [97, 98] 2 = str_repeat_n [97, 98] (2 - 1) ++ [97, 98] ∧
    (str_repeat_n [97, 98] 2).length = (2 : Int).toNat * [97, 98].length :=
  ⟨(claim_C7 [97, 98] 0).1 (Or.inl (by decide)),
   (claim_C7 [97, 98] 2).2.1 (by decide),
   (claim_C7 [97, 98] 2).2.2 (by decide)⟩

/-- C8: on a text buffer with no embedded zero unit, `str_char_at` yields the
no-value sentinel (the zero unit, which stands for `none`) exactly when the
index is negative or at least the length, and otherwise the unit at the
index. -/
theorem claim_C8 (t : List Nat) (i : Int) (hz : ∀ c ∈ t, c ≠ 0) :
    (str_char_at t i = 0 ↔ i < 0 ∨ (t.length : Int) ≤ i) ∧
    (∀ h0 : 0 ≤ i, ∀ hl : i < (t.length : Int),
        str_char_at t i = t.get ⟨i.toNat, by omega⟩) := by
  constructor
  · constructor
    · intro h
      by_contra hcon
      push_neg at hcon
      obtain ⟨h1, h2⟩ := hcon
      rw [str_char_at, if_neg (not_lt.mpr h1), if_neg (not_le.mpr h2)] at h
      have hget : i.toNat < t.length := by omega
      rw [List.getD_eq_getElem t 0 hget] at h
      exact hz _ (List.getElem_mem hget) h
    · intro h
      rcases h with h | h
      · rw [str_char_at, if_pos h]
      · rw [str_char_at, if_neg (by omega), if_pos (by exact h)]
  · intro h0 hl
    rw [str_char_at, if_neg (not_lt.mpr h0), if_neg (by omega)]
    rw [List.getD_eq_getElem t 0 (by omega)]
    simp [List.get_eq_getElem]

/-- Witness for C8 at the text "hi": index 5 is out of range and yields the
sentinel, index 1 yields the unit 'i'. -/
theorem claim_C8_witness :
    str_char_at [104, 105] 5 = 0 ∧ str_char_at [104, 105] 1 = 105 := by
  constructor
  · exact (claim_C8 [104, 105] 5 (by decide)).1.mpr (Or.inr (by decide))
  · have h := (claim_C8 [104, 105] 1 (by decide)).2 (by decide) (by decide)
    simpa using h

theorem freeAll_cancel (l : List Nat) :
    ∀ (ids : List Nat) (ctr : Nat), freeAll ids ⟨ctr, ids ++ l⟩ = ⟨ctr, l⟩ := by
  intro ids
  induction ids with
  | nil => intro ctr; rfl
  | cons id rest ih =>
      intro ctr
      simp only [freeAll, hFree, List.cons_append, List.erase_cons_head]
      exact ih ctr

theorem splitGoA_clean (ok : Nat → Bool) (d cid : Nat) :
    ∀ (text acc ids : List Nat) (toks : List (List Nat)) (ctr : Nat),
      (splitGoA ok d cid text acc ids toks ⟨ctr, ids ++ [cid]⟩).1 = none →
      (splitGoA ok d cid text acc ids toks ⟨ctr, ids ++ [cid]⟩).2.live = [] := by
  intro text
  induction text with
  | nil =>
      intro acc ids toks ctr hnone
      by_cases hok : ok ctr = true
      · simp [splitGoA, hAlloc, hok] at hnone
      · simp only [splitGoA, hAlloc, Bool.not_eq_true] at hnone ⊢
        rw [Bool.not_eq_true] at hok
        simp only [hok, Bool.false_eq_true, if_false]
        rw [freeAll_cancel [cid] ids (ctr + 1)]
        simp [hFree]
  | cons c rest ih =>
      intro acc ids toks ctr hnone
      by_cases hcd : c = d
      · by_cases hok : ok ctr = true
        · have he : splitGoA ok d cid (c :: rest) acc ids toks ⟨ctr, ids ++ [cid]⟩ =
              splitGoA ok d cid rest [] (ctr :: ids) (toks ++ [acc])
                ⟨ctr + 1, (ctr :: ids) ++ [cid]⟩ := by
            simp [splitGoA, hAlloc, hcd, hok]
          rw [he] at hnone ⊢
          exact ih [] (ctr :: ids) (toks ++ [acc]) (ctr + 1) hnone
        · rw [Bool.not_eq_true] at hok
          simp only [splitGoA, hAlloc, hcd, if_true, hok, Bool.false_eq_true,
            if_false]
          rw [freeAll_cancel [cid] ids (ctr + 1)]
          simp [hFree]
      · have he : splitGoA ok d cid (c :: rest) acc ids toks ⟨ctr, ids ++ [cid]⟩ =
            splitGoA ok d cid rest (acc ++ [c]) ids toks ⟨ctr, ids ++ [cid]⟩ := by
          simp [splitGoA, hcd]
        rw [he] at hnone ⊢
        exact ih (acc ++ [c]) ids toks ctr hnone

theorem splitGoA_fail (ok : Nat → Bool) (d cid : Nat) :
    ∀ (text acc ids : List Nat) (toks : List (List Nat)) (ctr : Nat)
      (live : List Nat) (k : Nat),
      ctr ≤ k → k < ctr + countOcc d text + 1 → ok k = false →
      (splitGoA ok d cid text acc ids toks ⟨ctr, live⟩).1 = none := by
  intro text
  induction text with
  | nil =>
      intro acc ids toks ctr live k h1 h2 h3
      have hke : k = ctr := by
        simp only [countOcc] at h2
        omega
      subst hke
      simp [splitGoA, hAlloc, h3]
  | cons c rest ih =>
      intro acc ids toks ctr live k h1 h2 h3
      by_cases hcd : c = d
      · by_cases hok : ok ctr = true
        · have hk : ctr + 1 ≤ k := by
            rcases Nat.eq_or_lt_of_le h1 with he | hl
            · exfalso
              rw [he] at hok
              rw [h3] at hok
              exact Bool.noConfusion hok
            · omega
          have he : splitGoA ok d cid (c :: rest) acc ids toks ⟨ctr, live⟩ =
              splitGoA ok d cid rest [] (ctr :: ids) (toks ++ [acc])
                ⟨ctr + 1, ctr :: live⟩ := by
            simp [splitGoA, hAlloc, hcd, hok]
          rw [he]
          have hco : countOcc d (c :: rest) = 1 + countOcc d rest := by
            simp [countOcc, hcd]
          exact ih [] (ctr :: ids) (toks ++ [acc]) (ctr + 1) (ctr :: live) k hk
            (by omega) h3
        · rw [Bool.not_eq_true] at hok
          simp [splitGoA, hAlloc, hcd, hok]
      · have he : splitGoA ok d cid (c :: rest) acc ids toks ⟨ctr, live⟩ =
            splitGoA ok d cid rest (acc ++ [c]) ids toks ⟨ctr, live⟩ := by
          simp [splitGoA, hcd]
        rw [he]
        have hco : countOcc d (c :: rest) = countOcc d rest := by
          simp [countOcc, hcd]
        exact ih (acc ++ [c]) ids toks ctr live k h1 (by omega) h3

/-- C2: in the allocation model of `str_split`, whenever the result is the
failure value every allocation has been released (no token and no container
stays live, so no partial result is observable), and a failed `malloc` among
those the call needs (the container plus one per token) forces the failure
value. -/
theorem claim_C2 (ok : Nat → Bool) (t : List Nat) (d : Nat) :
    ((str_splitA ok t d).1 = none → (str_splitA ok t d).2.live = []) ∧
    ((∃ k, k < countOcc d t + 2 ∧ ok k = false) →
      (str_splitA ok t d).1 = none) := by
  constructor
  · intro hnone
    by_cases hok : ok 0 = true
    · have he : str_splitA ok t d = splitGoA ok d 0 t [] [] [] ⟨1, [0]⟩ := by
        simp [str_splitA, hAlloc, hok]
      rw [he] at hnone ⊢
      exact splitGoA_clean ok d 0 t [] [] [] 1 hnone
    · rw [Bool.not_eq_true] at hok
      simp [str_splitA, hAlloc, hok]
  · rintro ⟨k, hk, hkf⟩
    by_cases hok : ok 0 = true
    · have hk0 : k ≠ 0 := by
        intro he
        rw [he] at hkf
        rw [hkf] at hok
        exact Bool.noConfusion hok
      have he : str_splitA ok t d = splitGoA ok d 0 t [] [] [] ⟨1, [0]⟩ := by
        simp [str_splitA, hAlloc, hok]
      rw [he]
      exact splitGoA_fail ok d 0 t [] [] [] 1 [0] k (by omega) (by omega) hkf
    · rw [Bool.not_eq_true] at hok
      simp [str_splitA, hAlloc, hok]

/-- Witness for C2: splitting "a,b" with an oracle that fails the second
`malloc` (the first token) yields the failure value and an empty live set. -/
theorem claim_C2_witness :
    (str_splitA (fun k => k != 1) [97, 44, 98] 44).1 = none ∧
    (str_splitA (fun k => k != 1) [97, 44, 98] 44).2.live = [] := by
  have h1 : (str_splitA (fun k => k != 1) [97, 44, 98] 44).1 = none :=
    (claim_C2 (fun k => k != 1) [97, 44, 98] 44).2 ⟨1, by decide, by decide⟩
  exact ⟨h1, (claim_C2 (fun k => k != 1) [97, 44, 98] 44).1 h1⟩

/-- C10: searching for the zero unit through `index_of` always reports -1,
on absent and on present text alike: the scan stops at the terminator before
ever comparing it with the search character. -/
theorem claim_C10 (text : Option (List Nat)) : index_of 0 text = -1 := by
  cases text with
  | none => rfl
  | some l => exact index_of_go_zero_search l 0
